import Mathlib

/-!
Verification of the type-metadata traversal, cross-reference index builder,
search filter and usage-tab state of the date-fns.org documentation front end.

The embedding follows the source:
* `extractTypes`, `buildMap`, `filteredNav`, `buildParentTypesMap` from
  `src/ui/screens/Docs/Doc/TypeDoc/Types/index.tsx`;
* the `DocUsage` component (effect, tab selection and rendering) from
  `src/ui/components/DocUsage/index.tsx`.

`DeclarationReflection` nodes are modelled by the inductive `Decl` with the
fields this code reads: `id`, `name`, `kindString`, `children`, `type`,
`typeParameter`, `typeParameters`, `signatures`.  Optional fields are
`Option`s (`none` = absent in the JSON); a present-but-empty array is
`some []`, which is truthy in JavaScript — the embedding preserves that
distinction wherever the source tests truthiness.
-/

mutual

inductive Decl : Type where
  | mk : Nat → String → Option String → Option (List Decl) → Option TypeExpr →
      Option (List Decl) → Option (List Decl) → Option (List Decl) → Decl

/-- Modelled from the spec: a TypeDoc type expression is either a
"reflection" sub-expression carrying an optional anonymous declaration, or
any other kind of expression, abstracted to the ordered list of its direct
sub-expressions (the structure `traverseType` walks). -/
inductive TypeExpr : Type where
  | reflection : Option Decl → TypeExpr
  | other : List TypeExpr → TypeExpr

end

def Decl.id : Decl → Nat
  | .mk i _ _ _ _ _ _ _ => i

def Decl.name : Decl → String
  | .mk _ n _ _ _ _ _ _ => n

def Decl.kindString : Decl → Option String
  | .mk _ _ k _ _ _ _ _ => k

def Decl.children : Decl → Option (List Decl)
  | .mk _ _ _ c _ _ _ _ => c

def Decl.type : Decl → Option TypeExpr
  | .mk _ _ _ _ t _ _ _ => t

def Decl.typeParameter : Decl → Option (List Decl)
  | .mk _ _ _ _ _ tp _ _ => tp

def Decl.typeParameters : Decl → Option (List Decl)
  | .mk _ _ _ _ _ _ tps _ => tps

def Decl.signatures : Decl → Option (List Decl)
  | .mk _ _ _ _ _ _ _ sg => sg

/-- Kinds the extractor collects (`case 'Interface': case 'Type alias'`). -/
def isTypeKind (k : Option String) : Bool :=
  k == some "Interface" || k == some "Type alias"

/-- Kinds the extractor skips together with their subtrees
(`case 'Module': case 'Function': return`). -/
def isSkipKind (k : Option String) : Bool :=
  k == some "Module" || k == some "Function"

mutual

/-- `extractTypes` from `Types/index.tsx`: walks `dec.children`, skipping
Module/Function subtrees, collecting Interface/"Type alias" children without
recursing into them, and recursing into children of any other kind when a
`children` array is present (the accumulator threads the mutated array). -/
def extractTypes : Decl → List Decl → List Decl
  | .mk _ _ _ none _ _ _ _, acc => acc
  | .mk _ _ _ (some cs) _ _ _ _, acc => extractList cs acc

def extractList : List Decl → List Decl → List Decl
  | [], acc => acc
  | c :: cs, acc =>
    extractList cs
      (if isSkipKind c.kindString then acc
       else if isTypeKind c.kindString then acc ++ [c]
       else if c.children.isSome then extractTypes c acc
       else acc)

end

mutual

/-- Spec-side collector: the Interface/"Type alias" nodes reachable from the
root through unrecognized-kind wrapper nodes only, in pre-order.  By
construction it never descends into a Module/Function subtree nor into a
collected type node. -/
def specTypesD : Decl → List Decl
  | .mk _ _ _ none _ _ _ _ => []
  | .mk _ _ _ (some cs) _ _ _ _ => specTypesL cs

def specTypesL : List Decl → List Decl
  | [] => []
  | c :: cs =>
    (if isSkipKind c.kindString then []
     else if isTypeKind c.kindString then [c]
     else specTypesD c) ++ specTypesL cs

end

mutual

/-- All Interface/"Type alias" proper descendants of a node, in pre-order
(document order), descending into every subtree. -/
def allTypeNodesD : Decl → List Decl
  | .mk _ _ _ none _ _ _ _ => []
  | .mk _ _ _ (some cs) _ _ _ _ => allTypeNodesL cs

def allTypeNodesL : List Decl → List Decl
  | [] => []
  | c :: cs =>
    (if isTypeKind c.kindString then [c] else []) ++ allTypeNodesD c ++ allTypeNodesL cs

end

mutual

/-- The shape hypothesis of the claim: every Interface/"Type alias" node of
the tree sits either directly under the root or below unrecognized-kind
wrapper nodes only (so Module/Function subtrees and the collected type nodes
themselves contain no further type nodes). -/
def typesShallowOnly : Decl → Bool
  | .mk _ _ _ none _ _ _ _ => true
  | .mk _ _ _ (some cs) _ _ _ _ => shallowL cs

def shallowL : List Decl → Bool
  | [] => true
  | c :: cs =>
    (if isSkipKind c.kindString then (allTypeNodesD c).isEmpty
     else if isTypeKind c.kindString then (allTypeNodesD c).isEmpty
     else typesShallowOnly c) && shallowL cs

end

mutual

theorem extractTypes_acc : ∀ (d : Decl) (acc : List Decl),
    extractTypes d acc = acc ++ specTypesD d
  | .mk i n k none ty tp tps sg, acc => by
      simp [extractTypes, specTypesD]
  | .mk i n k (some cs) ty tp tps sg, acc => by
      simp only [extractTypes, specTypesD]
      exact extractList_acc cs acc

theorem extractList_acc : ∀ (cs : List Decl) (acc : List Decl),
    extractList cs acc = acc ++ specTypesL cs
  | [], acc => by simp [extractList, specTypesL]
  | c :: cs, acc => by
      rw [extractList, extractList_acc cs, specTypesL]
      by_cases h1 : isSkipKind c.kindString
      · simp [h1]
      · by_cases h2 : isTypeKind c.kindString
        · simp [h1, h2]
        · by_cases h3 : c.children.isSome
          · simp [h1, h2, h3, extractTypes_acc c acc]
          · have : specTypesD c = [] := by
              match c, h3 with
              | .mk _ _ _ none _ _ _ _, _ => rfl
            simp [h1, h2, h3, this]

end

theorem skip_not_type (k : Option String) (h : isSkipKind k = true) :
    isTypeKind k = false := by
  revert h
  simp only [isSkipKind, isTypeKind, Bool.or_eq_true, beq_iff_eq]
  rintro (rfl | rfl) <;> simp

mutual

theorem specTypesD_eq_allTypeNodesD : ∀ (d : Decl),
    typesShallowOnly d = true → specTypesD d = allTypeNodesD d
  | .mk i n k none ty tp tps sg, _ => rfl
  | .mk i n k (some cs) ty tp tps sg, h => by
      simp only [specTypesD, allTypeNodesD]
      exact specTypesL_eq_allTypeNodesL cs (by simpa [typesShallowOnly] using h)

theorem specTypesL_eq_allTypeNodesL : ∀ (cs : List Decl),
    shallowL cs = true → specTypesL cs = allTypeNodesL cs
  | [], _ => rfl
  | c :: cs, h => by
      rw [shallowL, Bool.and_eq_true] at h
      rw [specTypesL, allTypeNodesL, specTypesL_eq_allTypeNodesL cs h.2]
      by_cases h1 : isSkipKind c.kindString
      · have he : allTypeNodesD c = [] := by
          simpa [h1, List.isEmpty_iff] using h.1
        simp [h1, skip_not_type c.kindString h1, he]
      · by_cases h2 : isTypeKind c.kindString
        · have he : allTypeNodesD c = [] := by
            simpa [h1, h2, List.isEmpty_iff] using h.1
          simp [h1, h2, he]
        · simp only [h1, h2, if_false, if_true, Bool.false_eq_true]
          rw [specTypesD_eq_allTypeNodesD c (by simpa [h1, h2] using h.1)]
          simp

end

mutual

theorem specTypesD_kinds : ∀ (d : Decl) (x : Decl),
    x ∈ specTypesD d → isTypeKind x.kindString = true
  | .mk i n k none ty tp tps sg, x, hx => by simp [specTypesD] at hx
  | .mk i n k (some cs) ty tp tps sg, x, hx =>
      specTypesL_kinds cs x (by simpa [specTypesD] using hx)

theorem specTypesL_kinds : ∀ (cs : List Decl) (x : Decl),
    x ∈ specTypesL cs → isTypeKind x.kindString = true
  | c :: cs, x, hx => by
      rw [specTypesL, List.mem_append] at hx
      rcases hx with hx | hx
      · by_cases h1 : isSkipKind c.kindString
        · simp [h1] at hx
        · by_cases h2 : isTypeKind c.kindString
          · simp [h1, h2] at hx
            exact hx ▸ h2
          · exact specTypesD_kinds c x (by simpa [h1, h2] using hx)
      · exact specTypesL_kinds cs x hx

end

/-- C1: on every tree whose Interface/"Type alias" nodes sit directly under
the root or below unrecognized-kind wrappers only, `extractTypes` returns
exactly those nodes in pre-order document order (`allTypeNodesD`), equals the
collector `specTypesD` that by construction never descends into a Module or
Function subtree, and appends nodes of no other kind. -/
theorem extractTypes_collects_shallow_types (t : Decl)
    (h : typesShallowOnly t = true) :
    extractTypes t [] = allTypeNodesD t ∧
    extractTypes t [] = specTypesD t ∧
    ∀ x ∈ extractTypes t [], isTypeKind x.kindString = true := by
  have hbase : extractTypes t [] = specTypesD t := by
    simpa using extractTypes_acc t []
  refine ⟨?_, hbase, ?_⟩
  · rw [hbase]; exact specTypesD_eq_allTypeNodesD t h
  · intro x hx
    exact specTypesD_kinds t x (hbase ▸ hx)

def witTypeA : Decl := .mk 1 "A" (some "Interface") none none none none none
def witTypeB : Decl := .mk 2 "B" (some "Type alias") none none none none none
def witFn : Decl := .mk 3 "f" (some "Function") none none none none none
def witModule : Decl := .mk 4 "M" (some "Module") (some [witFn]) none none none none
def witWrapper : Decl := .mk 5 "W" (some "Namespace") (some [witTypeB]) none none none none
def witRoot : Decl := .mk 0 "root" (some "Project") (some [witTypeA, witModule, witWrapper]) none none none none

theorem extractTypes_collects_shallow_types_witness :
    typesShallowOnly witRoot = true ∧
    (extractTypes witRoot [] = allTypeNodesD witRoot ∧
     extractTypes witRoot [] = specTypesD witRoot ∧
     ∀ x ∈ extractTypes witRoot [], isTypeKind x.kindString = true) :=
  ⟨rfl, extractTypes_collects_shallow_types witRoot rfl⟩

/-- C10: `extractTypes` is a pure function of the tree value — the embedding
cannot mutate its input, so running it twice on the unchanged tree is
definitionally the same computation and yields value-equal sequences; the
accumulator law shows the result is independent of previously accumulated
state, so a repeat run appends exactly the same sequence again. -/
theorem extractTypes_idempotent (t : Decl) :
    extractTypes t [] = extractTypes t [] ∧
    ∀ acc : List Decl, extractTypes t acc = acc ++ extractTypes t [] := by
  refine ⟨rfl, fun acc => ?_⟩
  rw [extractTypes_acc t acc, extractTypes_acc t []]
  simp

/-- `ParentTypesMap` (a plain JavaScript object keyed by numeric ids) as an
association list in property-creation order. -/
abbrev PMap := List (Nat × String)

/-- Property read `map[k]`. -/
def lookupEntry : PMap → Nat → Option String
  | [], _ => none
  | (k', v) :: rest, k => if k' = k then some v else lookupEntry rest k

/-- Property write `map[k] = v`: overwrite in place when the key exists,
append a new property otherwise. -/
def setEntry (m : PMap) (k : Nat) (v : String) : PMap :=
  if m.any (fun p => p.1 = k) then
    m.map (fun p => if p.1 = k then (k, v) else p)
  else m ++ [(k, v)]

def applyWrites (m : PMap) (ws : PMap) : PMap :=
  ws.foldl (fun acc p => setEntry acc p.1 p.2) m

/-- Modelled from the spec: `inlineTypeHash` (defined in `~/utils/docs`,
which is not included under `src/`) computes the display tag for an inline
type parameter as an addressable fragment built from the `(name, id)` pairs
of the focal declaration and the parameter. -/
def inlineTypeHash (refl p : Decl) : String :=
  "#" ++ refl.name ++ "-" ++ toString refl.id ++ "-" ++ p.name ++ "-" ++ toString p.id

/-- JavaScript `a || b` on two optional array-valued fields: an array value,
even an empty one, is truthy, so a present left field shadows the right one. -/
def jsOr {α : Type} : Option α → Option α → Option α
  | some a, _ => some a
  | none, b => b

/-- The parameter list the registration step iterates over:
`(refl && type?.typeParameter) || type?.typeParameters` (under a truthy
`refl`), an absent result iterating nothing. -/
def paramsUsed (type : Option Decl) : List Decl :=
  (jsOr (type.bind Decl.typeParameter) (type.bind Decl.typeParameters)).getD []

/-- The registration statement of `buildParentTypesMap`: when `refl` is
present, write `map[ref.id] = inlineTypeHash(refl, ref)` for each parameter
of the current node; when `refl` is absent the guard short-circuits. -/
def registerParams (refl : Option Decl) (type : Option Decl) (m : PMap) : PMap :=
  match refl with
  | none => m
  | some r => (paramsUsed type).foldl (fun acc p => setEntry acc p.id (inlineTypeHash r p)) m

mutual

/-- `buildParentTypesMap` from `Types/index.tsx`, with the accumulator map
explicit and the current node present: register the current node's
parameters, then walk the current node's type expression (`traverseType`)
and, for every reflection sub-expression, recurse into each of its
declaration's signatures keeping `refl` — the original focal node —
unchanged. -/
def buildParentTypesMapAux (refl : Option Decl) : Decl → PMap → PMap
  | .mk i n k ch none tp tps sg, m =>
    registerParams refl (some (.mk i n k ch none tp tps sg)) m
  | .mk i n k ch (some te) tp tps sg, m =>
    walkExpr refl te (registerParams refl (some (.mk i n k ch (some te) tp tps sg)) m)

/-- The `traverseType` callback applied along a type expression: reflection
sub-expressions contribute their declaration's signatures. -/
def walkExpr (refl : Option Decl) : TypeExpr → PMap → PMap
  | .reflection none, m => m
  | .reflection (some (.mk _ _ _ _ _ _ _ none)), m => m
  | .reflection (some (.mk _ _ _ _ _ _ _ (some sgs))), m => walkSigs refl sgs m
  | .other ts, m => walkExprs refl ts m

def walkExprs (refl : Option Decl) : List TypeExpr → PMap → PMap
  | [], m => m
  | te :: tes, m => walkExprs refl tes (walkExpr refl te m)

def walkSigs (refl : Option Decl) : List Decl → PMap → PMap
  | [], m => m
  | s :: ss, m => walkSigs refl ss (buildParentTypesMapAux refl s m)

end

/-- The one-argument form used by the component: `buildParentTypesMap(type)`
starts with `type = refl` and a fresh map; an absent node registers nothing
and carries no type expression to walk. -/
def buildParentTypesMap : Option Decl → PMap
  | none => registerParams none none []
  | some r => buildParentTypesMapAux (some r) r []

mutual

/-- The parameters `buildParentTypesMapAux` registers starting at a current
node, in write order: the node's `paramsUsed`, then those of every call
signature found under reflection sub-expressions of the node's type,
recursively. -/
def regParams : Decl → List Decl
  | .mk i n k ch none tp tps sg =>
    paramsUsed (some (.mk i n k ch none tp tps sg))
  | .mk i n k ch (some te) tp tps sg =>
    paramsUsed (some (.mk i n k ch (some te) tp tps sg)) ++ regParamsE te

def regParamsE : TypeExpr → List Decl
  | .reflection none => []
  | .reflection (some (.mk _ _ _ _ _ _ _ none)) => []
  | .reflection (some (.mk _ _ _ _ _ _ _ (some sgs))) => regParamsSigs sgs
  | .other ts => regParamsL ts

def regParamsL : List TypeExpr → List Decl
  | [] => []
  | te :: tes => regParamsE te ++ regParamsL tes

def regParamsSigs : List Decl → List Decl
  | [] => []
  | s :: ss => regParams s ++ regParamsSigs ss

end

mutual

/-- The call signatures `buildParentTypesMapAux` visits as "current node"
below a given current node (excluded), at any nesting depth. -/
def sigsIn : Decl → List Decl
  | .mk _ _ _ _ none _ _ _ => []
  | .mk _ _ _ _ (some te) _ _ _ => sigsInE te

def sigsInE : TypeExpr → List Decl
  | .reflection none => []
  | .reflection (some (.mk _ _ _ _ _ _ _ none)) => []
  | .reflection (some (.mk _ _ _ _ _ _ _ (some sgs))) => sigsInSigs sgs
  | .other ts => sigsInL ts

def sigsInL : List TypeExpr → List Decl
  | [] => []
  | te :: tes => sigsInE te ++ sigsInL tes

def sigsInSigs : List Decl → List Decl
  | [] => []
  | s :: ss => (s :: sigsIn s) ++ sigsInSigs ss

end

/-- The writes a run with focal `refl` performs for a given registered
parameter list: nothing when `refl` is absent, one tagged entry per
parameter otherwise. -/
def writesFor (refl : Option Decl) (ps : List Decl) : PMap :=
  match refl with
  | none => []
  | some r => ps.map (fun p => (p.id, inlineTypeHash r p))

theorem lookupEntry_append : ∀ (a b : PMap) (k : Nat),
    lookupEntry (a ++ b) k =
      (match lookupEntry a k with
       | some v => some v
       | none => lookupEntry b k)
  | [], b, k => by simp [lookupEntry]
  | (k', v) :: rest, b, k => by
    by_cases h : k' = k <;> simp [lookupEntry, h, lookupEntry_append rest b k]

theorem lookupEntry_of_no_key : ∀ (m : PMap) (k : Nat),
    m.any (fun p => p.1 = k) = false → lookupEntry m k = none
  | [], _, _ => rfl
  | (k', v) :: rest, k, h => by
    simp only [List.any_cons, Bool.or_eq_false_iff] at h
    have hk : ¬ k' = k := by simpa using h.1
    simp [lookupEntry, hk, lookupEntry_of_no_key rest k h.2]

theorem lookupEntry_map_overwrite : ∀ (m : PMap) (k : Nat) (v : String),
    m.any (fun p => p.1 = k) = true →
    lookupEntry (m.map (fun p => if p.1 = k then (k, v) else p)) k = some v
  | [], k, v, h => by simp at h
  | (k', v') :: rest, k, v, h => by
    by_cases hk : k' = k
    · subst hk
      simp only [List.map_cons]
      simp [lookupEntry]
    · have hrest : rest.any (fun p => p.1 = k) = true := by simpa [hk] using h
      simp only [List.map_cons]
      rw [show ((if (k', v').1 = k then (k, v) else (k', v')) = (k', v')) from if_neg hk]
      rw [lookupEntry, if_neg hk]
      exact lookupEntry_map_overwrite rest k v hrest

theorem lookupEntry_map_preserve : ∀ (m : PMap) (k k' : Nat) (v : String), k' ≠ k →
    lookupEntry (m.map (fun p => if p.1 = k then (k, v) else p)) k' = lookupEntry m k'
  | [], _, _, _, _ => rfl
  | (k₁, v₁) :: rest, k, k', v, hk => by
    by_cases h1 : k₁ = k
    · subst h1
      have hne : ¬ k₁ = k' := fun he => hk he.symm
      simp only [List.map_cons]
      simp [lookupEntry, hne, lookupEntry_map_preserve rest k₁ k' v hk]
    · simp only [List.map_cons]
      rw [show ((if (k₁, v₁).1 = k then (k, v) else (k₁, v₁)) = (k₁, v₁)) from if_neg h1]
      by_cases h2 : k₁ = k'
      · simp [lookupEntry, h2]
      · simp [lookupEntry, h2, lookupEntry_map_preserve rest k k' v hk]

theorem lookupEntry_setEntry_self (m : PMap) (k : Nat) (v : String) :
    lookupEntry (setEntry m k v) k = some v := by
  unfold setEntry
  by_cases h : m.any (fun p => p.1 = k) = true
  · rw [if_pos h]
    exact lookupEntry_map_overwrite m k v h
  · rw [if_neg h]
    have hfalse : m.any (fun p => p.1 = k) = false := by
      simp only [Bool.not_eq_true] at h
      exact h
    rw [lookupEntry_append, lookupEntry_of_no_key m k hfalse]
    simp [lookupEntry]

theorem lookupEntry_setEntry_other (m : PMap) (k k' : Nat) (v : String)
    (hk : k' ≠ k) : lookupEntry (setEntry m k v) k' = lookupEntry m k' := by
  unfold setEntry
  by_cases h : m.any (fun p => p.1 = k) = true
  · rw [if_pos h]
    exact lookupEntry_map_preserve m k k' v hk
  · rw [if_neg h, lookupEntry_append]
    cases hl : lookupEntry m k' with
    | some v' => simp
    | none => simp [lookupEntry, hk.symm]

theorem applyWrites_append (m : PMap) (a b : PMap) :
    applyWrites m (a ++ b) = applyWrites (applyWrites m a) b := by
  simp [applyWrites, List.foldl_append]

/-- If every write in `ws` whose key is `k` carries the value `v`, and either
such a write exists or the map already holds `v` at `k`, then after applying
`ws` the map holds `v` at `k`. -/
theorem lookupEntry_applyWrites : ∀ (ws : PMap) (m : PMap) (k : Nat) (v : String),
    (∀ p ∈ ws, p.1 = k → p.2 = v) →
    ((k, v) ∈ ws ∨ lookupEntry m k = some v) →
    lookupEntry (applyWrites m ws) k = some v
  | [], m, k, v, _, hsome => by
    rcases hsome with h | h
    · simp at h
    · simpa [applyWrites] using h
  | (k₁, v₁) :: rest, m, k, v, hall, hsome => by
    have hstep : applyWrites m ((k₁, v₁) :: rest) = applyWrites (setEntry m k₁ v₁) rest := rfl
    rw [hstep]
    by_cases hk : k₁ = k
    · subst hk
      have hv : v₁ = v := hall (k₁, v₁) (by simp) rfl
      subst hv
      exact lookupEntry_applyWrites rest (setEntry m k₁ v₁) k₁ v₁
        (fun p hp => hall p (List.mem_cons_of_mem _ hp))
        (Or.inr (lookupEntry_setEntry_self m k₁ v₁))
    · refine lookupEntry_applyWrites rest (setEntry m k₁ v₁) k v
        (fun p hp => hall p (List.mem_cons_of_mem _ hp)) ?_
      rcases hsome with h | h
      · rcases List.mem_cons.mp h with h | h
        · exact absurd (congrArg Prod.fst h).symm hk
        · exact Or.inl h
      · refine Or.inr ?_
        rw [lookupEntry_setEntry_other m k₁ k v₁ (fun he => hk he.symm)]
        exact h

theorem registerParams_eq_applyWrites (refl type : Option Decl) (m : PMap) :
    registerParams refl type m = applyWrites m (writesFor refl (paramsUsed type)) := by
  cases refl with
  | none => rfl
  | some r =>
    simp [registerParams, writesFor, applyWrites, List.foldl_map]

theorem writesFor_append (refl : Option Decl) (a b : List Decl) :
    writesFor refl (a ++ b) = writesFor refl a ++ writesFor refl b := by
  cases refl <;> simp [writesFor]

mutual

theorem buildParentTypesMapAux_writes : ∀ (refl : Option Decl) (d : Decl) (m : PMap),
    buildParentTypesMapAux refl d m = applyWrites m (writesFor refl (regParams d))
  | refl, .mk i n k ch none tp tps sg, m => by
    rw [buildParentTypesMapAux, regParams, registerParams_eq_applyWrites]
  | refl, .mk i n k ch (some te) tp tps sg, m => by
    rw [buildParentTypesMapAux, regParams, registerParams_eq_applyWrites,
      walkExpr_writes refl te, writesFor_append, applyWrites_append]

theorem walkExpr_writes : ∀ (refl : Option Decl) (te : TypeExpr) (m : PMap),
    walkExpr refl te m = applyWrites m (writesFor refl (regParamsE te))
  | refl, .reflection none, m => by
    cases refl <;> simp [walkExpr, regParamsE, writesFor, applyWrites]
  | refl, .reflection (some (.mk _ _ _ _ _ _ _ none)), m => by
    cases refl <;> simp [walkExpr, regParamsE, writesFor, applyWrites]
  | refl, .reflection (some (.mk _ _ _ _ _ _ _ (some sgs))), m => by
    rw [walkExpr, regParamsE]
    exact walkSigs_writes refl sgs m
  | refl, .other ts, m => by
    rw [walkExpr, regParamsE]
    exact walkExprs_writes refl ts m

theorem walkExprs_writes : ∀ (refl : Option Decl) (tes : List TypeExpr) (m : PMap),
    walkExprs refl tes m = applyWrites m (writesFor refl (regParamsL tes))
  | refl, [], m => by cases refl <;> simp [walkExprs, regParamsL, writesFor, applyWrites]
  | refl, te :: tes, m => by
    rw [walkExprs, regParamsL, walkExpr_writes refl te, walkExprs_writes refl tes,
      writesFor_append, applyWrites_append]

theorem walkSigs_writes : ∀ (refl : Option Decl) (ss : List Decl) (m : PMap),
    walkSigs refl ss m = applyWrites m (writesFor refl (regParamsSigs ss))
  | refl, [], m => by cases refl <;> simp [walkSigs, regParamsSigs, writesFor, applyWrites]
  | refl, s :: ss, m => by
    rw [walkSigs, regParamsSigs, buildParentTypesMapAux_writes refl s,
      walkSigs_writes refl ss, writesFor_append, applyWrites_append]

end

theorem paramsUsed_sub_regParams : ∀ (s : Decl), ∀ q ∈ paramsUsed (some s), q ∈ regParams s
  | .mk i n k ch none tp tps sg, q, hq => by
    rw [regParams]
    exact hq
  | .mk i n k ch (some te) tp tps sg, q, hq => by
    rw [regParams]
    exact List.mem_append_left _ hq

mutual

theorem sigsIn_params_sub : ∀ (d : Decl) (s : Decl), s ∈ sigsIn d →
    ∀ q ∈ paramsUsed (some s), q ∈ regParams d
  | .mk i n k ch none tp tps sg, s, hs, q, hq => by
    rw [sigsIn] at hs
    simp at hs
  | .mk i n k ch (some te) tp tps sg, s, hs, q, hq => by
    rw [sigsIn] at hs
    rw [regParams]
    exact List.mem_append_right _ (sigsInE_params_sub te s hs q hq)

theorem sigsInE_params_sub : ∀ (te : TypeExpr) (s : Decl), s ∈ sigsInE te →
    ∀ q ∈ paramsUsed (some s), q ∈ regParamsE te
  | .reflection none, s, hs, q, hq => by rw [sigsInE] at hs; simp at hs
  | .reflection (some (.mk _ _ _ _ _ _ _ none)), s, hs, q, hq => by
    rw [sigsInE] at hs
    simp at hs
  | .reflection (some (.mk _ _ _ _ _ _ _ (some sgs))), s, hs, q, hq => by
    rw [sigsInE] at hs
    rw [regParamsE]
    exact sigsInSigs_params_sub sgs s hs q hq
  | .other ts, s, hs, q, hq => by
    rw [sigsInE] at hs
    rw [regParamsE]
    exact sigsInL_params_sub ts s hs q hq

theorem sigsInL_params_sub : ∀ (tes : List TypeExpr) (s : Decl), s ∈ sigsInL tes →
    ∀ q ∈ paramsUsed (some s), q ∈ regParamsL tes
  | [], s, hs, q, hq => by rw [sigsInL] at hs; simp at hs
  | te :: tes, s, hs, q, hq => by
    rw [sigsInL] at hs
    rw [regParamsL]
    rcases List.mem_append.mp hs with h | h
    · exact List.mem_append_left _ (sigsInE_params_sub te s h q hq)
    · exact List.mem_append_right _ (sigsInL_params_sub tes s h q hq)

theorem sigsInSigs_params_sub : ∀ (ss : List Decl) (s : Decl), s ∈ sigsInSigs ss →
    ∀ q ∈ paramsUsed (some s), q ∈ regParamsSigs ss
  | [], s, hs, q, hq => by rw [sigsInSigs] at hs; simp at hs
  | s' :: ss, s, hs, q, hq => by
    rw [sigsInSigs] at hs
    rw [regParamsSigs]
    rcases List.mem_append.mp hs with h | h
    · rcases List.mem_cons.mp h with h | h
      · subst h
        exact List.mem_append_left _ (paramsUsed_sub_regParams s q hq)
      · exact List.mem_append_left _ (sigsIn_params_sub s' s h q hq)
    · exact List.mem_append_right _ (sigsInSigs_params_sub ss s h q hq)

end

/-- C9: when the focal node is absent, `buildParentTypesMap` registers
nothing and walks nothing — it returns the empty mapping; the function is
total, so no error is signalled. -/
theorem buildParentTypesMap_absent : buildParentTypesMap none = [] := rfl

/-- C2: every type parameter `Q` declared (in the field the registration
step actually reads) by a call signature `s` that lies inside a nested
reflection type expression reachable from the focal node's type — at any
nesting depth — is mapped to the display tag `inlineTypeHash f Q` computed
from the original top-level focal node `f`, never from the nested signature.
The side condition `hu` is the input format's id-uniqueness invariant,
restricted to the parameters this run registers. -/
theorem buildParentTypesMap_anchors_nested_params_to_focal (f s Q : Decl)
    (hs : s ∈ sigsIn f)
    (hQ : Q ∈ paramsUsed (some s))
    (hu : ∀ p ∈ regParams f, p.id = Q.id → p = Q) :
    lookupEntry (buildParentTypesMap (some f)) Q.id = some (inlineTypeHash f Q) := by
  have hmem : Q ∈ regParams f := sigsIn_params_sub f s hs Q hQ
  rw [show buildParentTypesMap (some f) = buildParentTypesMapAux (some f) f [] from rfl,
    buildParentTypesMapAux_writes]
  apply lookupEntry_applyWrites
  · intro p hp hpk
    simp only [writesFor, List.mem_map] at hp
    obtain ⟨q, hqmem, hq⟩ := hp
    have hqid : q.id = Q.id := by
      have := congrArg Prod.fst hq
      simpa using hpk ▸ this
    have : q = Q := hu q hqmem hqid
    subst this
    exact (congrArg Prod.snd hq).symm ▸ rfl
  · left
    simp only [writesFor, List.mem_map]
    exact ⟨Q, hmem, rfl⟩

/-- C4: the registration step executed at every visit level of
`buildParentTypesMapAux` (its first statement, `registerParams`) registers
every generic-parameter child found under the `typeParameter` field or the
`typeParameters` field of the current node, mapping the parameter's `id` to
the display tag computed from the focal node and the parameter.  The code
reads `typeParameter` first and only falls back to `typeParameters`, so the
hypothesis `h1` records the input format's guarantee that at most one of the
two fields is populated; `hu` is the id-uniqueness invariant among the
parameters of the current node. -/
theorem registerParams_registers_either_field (r t p : Decl) (m : PMap)
    (h1 : t.typeParameter = none ∨ t.typeParameters = none)
    (hp : p ∈ t.typeParameter.getD [] ++ t.typeParameters.getD [])
    (hu : ∀ q ∈ paramsUsed (some t), q.id = p.id → q = p) :
    lookupEntry (registerParams (some r) (some t) m) p.id = some (inlineTypeHash r p) := by
  have hpu : p ∈ paramsUsed (some t) := by
    obtain ⟨i, n, k, ch, ty, tp, tps, sg⟩ := t
    rcases h1 with h1 | h1
    · simp only [Decl.typeParameter] at h1
      subst h1
      simpa [paramsUsed, jsOr, Decl.typeParameter, Decl.typeParameters] using hp
    · simp only [Decl.typeParameters] at h1
      subst h1
      cases tp with
      | none => simp [paramsUsed, jsOr, Decl.typeParameter, Decl.typeParameters] at hp
      | some l => simpa [paramsUsed, jsOr, Decl.typeParameter, Decl.typeParameters] using hp
  rw [registerParams_eq_applyWrites]
  apply lookupEntry_applyWrites
  · intro q hq hqk
    simp only [writesFor, List.mem_map] at hq
    obtain ⟨q', hq'mem, hq'⟩ := hq
    have hq'id : q'.id = p.id := by
      have := congrArg Prod.fst hq'
      simpa using hqk ▸ this
    have : q' = p := hu q' hq'mem hq'id
    subst this
    exact (congrArg Prod.snd hq').symm ▸ rfl
  · left
    simp only [writesFor, List.mem_map]
    exact ⟨p, hpu, rfl⟩

def c2Q : Decl := .mk 7 "Q" (some "Type parameter") none none none none none
def c2Sig : Decl := .mk 5 "call" none none none (some [c2Q]) none none
def c2Anon : Decl := .mk 4 "anon" none none none none none (some [c2Sig])
def c2Focal : Decl :=
  .mk 1 "Focal" (some "Interface") none (some (.reflection (some c2Anon))) none none none

theorem buildParentTypesMap_anchors_nested_params_to_focal_witness :
    c2Sig ∈ sigsIn c2Focal ∧ c2Q ∈ paramsUsed (some c2Sig) ∧
    (∀ p ∈ regParams c2Focal, p.id = c2Q.id → p = c2Q) ∧
    lookupEntry (buildParentTypesMap (some c2Focal)) c2Q.id =
      some (inlineTypeHash c2Focal c2Q) := by
  have hs : c2Sig ∈ sigsIn c2Focal := by
    rw [show sigsIn c2Focal = [c2Sig] from rfl]
    exact List.mem_singleton.mpr rfl
  have hQ : c2Q ∈ paramsUsed (some c2Sig) := by
    rw [show paramsUsed (some c2Sig) = [c2Q] from rfl]
    exact List.mem_singleton.mpr rfl
  have hu : ∀ p ∈ regParams c2Focal, p.id = c2Q.id → p = c2Q := by
    intro p hp _
    rw [show regParams c2Focal = [c2Q] from rfl] at hp
    exact List.mem_singleton.mp hp
  exact ⟨hs, hQ, hu,
    buildParentTypesMap_anchors_nested_params_to_focal c2Focal c2Sig c2Q hs hQ hu⟩

def c4P : Decl := .mk 11 "P" (some "Type parameter") none none none none none
def c4Node : Decl := .mk 9 "sig" none none none none (some [c4P]) none

theorem registerParams_registers_either_field_witness :
    (c4Node.typeParameter = none ∨ c4Node.typeParameters = none) ∧
    c4P ∈ c4Node.typeParameter.getD [] ++ c4Node.typeParameters.getD [] ∧
    (∀ q ∈ paramsUsed (some c4Node), q.id = c4P.id → q = c4P) ∧
    lookupEntry (registerParams (some c4Node) (some c4Node) []) c4P.id =
      some (inlineTypeHash c4Node c4P) := by
  have h1 : c4Node.typeParameter = none ∨ c4Node.typeParameters = none := Or.inl rfl
  have hp : c4P ∈ c4Node.typeParameter.getD [] ++ c4Node.typeParameters.getD [] := by
    rw [show c4Node.typeParameter.getD [] ++ c4Node.typeParameters.getD [] = [c4P] from rfl]
    exact List.mem_singleton.mpr rfl
  have hu : ∀ q ∈ paramsUsed (some c4Node), q.id = c4P.id → q = c4P := by
    intro q hq _
    rw [show paramsUsed (some c4Node) = [c4P] from rfl] at hq
    exact List.mem_singleton.mp hq
  exact ⟨h1, hp, hu,
    registerParams_registers_either_field c4Node c4Node c4P [] h1 hp hu⟩

def chainParam (k : Nat) : Decl :=
  .mk (1000 + k) "Q" (some "Type parameter") none none none none none

/-- A chain of call signatures: the signature at level `k + 1` carries a
reflection type expression whose anonymous declaration holds the signature at
level `k`; every level declares one type parameter. -/
def chainSig : Nat → Decl
  | 0 => .mk 0 "sig" none none none (some [chainParam 0]) none none
  | k + 1 =>
    .mk (k + 1) "sig" none none
      (some (.reflection (some (.mk (2000 + k) "anon" none none none none none
        (some [chainSig k])))))
      (some [chainParam (k + 1)]) none none

/-- A focal interface whose type nests `chainSig n`, hence reflections to
depth `n + 1`. -/
def chainFocal (n : Nat) : Decl :=
  .mk 5000 "Focal" (some "Interface") none
    (some (.reflection (some (.mk 6000 "anon" none none none none none
      (some [chainSig n])))))
    none none none

theorem chain_regParams_succ (k : Nat) :
    regParams (chainSig (k + 1)) = chainParam (k + 1) :: regParams (chainSig k) := by
  simp [chainSig, regParams, regParamsE, regParamsSigs, paramsUsed, jsOr, Decl.typeParameter,
    Decl.typeParameters]

theorem chain_focal_regParams (n : Nat) :
    regParams (chainFocal n) = regParams (chainSig n) := by
  simp [chainFocal, regParams, regParamsE, regParamsSigs, paramsUsed, jsOr, Decl.typeParameter,
    Decl.typeParameters]

theorem chain_param_mem : ∀ n : Nat, chainParam 0 ∈ regParams (chainSig n)
  | 0 => by
    rw [show regParams (chainSig 0) = [chainParam 0] from rfl]
    exact List.mem_singleton.mpr rfl
  | n + 1 => by
    rw [chain_regParams_succ n]
    exact List.mem_cons_of_mem _ (chain_param_mem n)

theorem chain_param_unique : ∀ n : Nat, ∀ p ∈ regParams (chainSig n),
    p.id = (chainParam 0).id → p = chainParam 0
  | 0, p, hp, _ => by
    rw [show regParams (chainSig 0) = [chainParam 0] from rfl] at hp
    exact List.mem_singleton.mp hp
  | n + 1, p, hp, hid => by
    rw [chain_regParams_succ n] at hp
    rcases List.mem_cons.mp hp with h | h
    · subst h
      rw [show (chainParam (n + 1)).id = 1000 + (n + 1) from rfl,
        show (chainParam 0).id = 1000 from rfl] at hid
      omega
    · exact chain_param_unique n p h hid

theorem chain_lookup (n : Nat) :
    lookupEntry (buildParentTypesMap (some (chainFocal n))) (chainParam 0).id =
      some (inlineTypeHash (chainFocal n) (chainParam 0)) := by
  rw [show buildParentTypesMap (some (chainFocal n)) =
      buildParentTypesMapAux (some (chainFocal n)) (chainFocal n) [] from rfl,
    buildParentTypesMapAux_writes]
  apply lookupEntry_applyWrites
  · intro p hp hpk
    simp only [writesFor, List.mem_map] at hp
    obtain ⟨q, hqmem, hq⟩ := hp
    rw [chain_focal_regParams n] at hqmem
    have hqid : q.id = (chainParam 0).id := by
      have := congrArg Prod.fst hq
      simpa using hpk ▸ this
    have : q = chainParam 0 := chain_param_unique n q hqmem hqid
    subst this
    exact (congrArg Prod.snd hq).symm ▸ rfl
  · left
    simp only [writesFor, List.mem_map]
    exact ⟨chainParam 0, by rw [chain_focal_regParams n]; exact chain_param_mem n, rfl⟩

/-- C3 counterexample: on a focal node whose reflections nest 67 levels deep
— beyond the cap of 64 the claim describes — `buildParentTypesMap` neither
aborts nor returns a partial map: the parameter registered at the deepest
level is present in the returned map, and no diagnostic channel exists in
the function's type at all. -/
theorem buildParentTypesMap_depth_cap_counterexample :
    lookupEntry (buildParentTypesMap (some (chainFocal 66))) (chainParam 0).id =
      some (inlineTypeHash (chainFocal 66) (chainParam 0)) ∧ 64 < 66 :=
  ⟨chain_lookup 66, by omega⟩

/-- C3 amended: `buildParentTypesMap` imposes no recursion-depth cap and
emits no diagnostic; it walks nested reflections at every finite depth by
structural recursion on the (finite) input, always returning the complete
map — here, the parameter declared at the deepest of `n + 1` nesting levels
is registered for every `n`. -/
theorem buildParentTypesMap_no_depth_cap (n : Nat) :
    lookupEntry (buildParentTypesMap (some (chainFocal n))) (chainParam 0).id =
      some (inlineTypeHash (chainFocal n) (chainParam 0)) :=
  chain_lookup n

/-- The browser-local preference store as seen through the fixed key
`usageSource`: get/set of one optional string. -/
structure PrefStore where
  usageSource : Option String
deriving DecidableEq

def DEFAULT_SOURCE : String := "commonjs"

/-- The mount effect of `DocUsage`: read the persisted preference; adopt it
when present, otherwise persist the current (initial) source.  Returns the
store after the effect and the `source` state used for display. -/
def docUsageEffect (store : PrefStore) (source : String) : PrefStore × String :=
  match store.usageSource with
  | some v => (store, v)
  | none => ({ usageSource := some source }, source)

/-- `const selectedTab = usageTabs.includes(source) ? source : usageTabs[0]`;
`usageTabs[0]` is `undefined` on an empty array, hence the `Option`. -/
def selectedTabOf (usageTabs : List String) (source : String) : Option String :=
  if usageTabs.contains source then some source else usageTabs.head?

/-- The click handler of a usage tab: set the state and persist the new
selection globally. -/
def docUsageClickTab (_store : PrefStore) (tab : String) : PrefStore × String :=
  ({ usageSource := some tab }, tab)

structure UsageItem where
  title : String
  code : String
  text : String
deriving DecidableEq

structure RenderedUsage where
  tabs : List (String × String)
  selected : Option String
  contentCode : String
  contentText : String
deriving DecidableEq

/-- The render body of `DocUsage`: the tab list skips tabs without a usage
entry (`if (!usageItem) return null`), but `<Content code={selectedUsage.code}
text={selectedUsage.text} />` dereferences `usage[selectedTab]` without a
guard — when that entry is missing the JavaScript throws a `TypeError`,
modelled here by the `none` result. -/
def renderDocUsage (usage : String → Option UsageItem) (usageTabs : List String)
    (source : String) : Option RenderedUsage :=
  let sel := selectedTabOf usageTabs source
  match sel.bind usage with
  | none => none
  | some item =>
    some { tabs := usageTabs.filterMap (fun tb => (usage tb).map (fun it => (tb, it.title))),
           selected := sel,
           contentCode := item.code,
           contentText := item.text }

/-- C5 counterexample: with persisted preference "umd" and available tabs
`["esm"]`, the stored tab is not among the available tabs, yet the displayed
tab is "esm" — the first available tab — and not the hard-coded default
"commonjs". -/
theorem docUsage_fallback_counterexample :
    ((["esm"] : List String).contains (docUsageEffect ⟨some "umd"⟩ DEFAULT_SOURCE).2 = false) ∧
    selectedTabOf ["esm"] (docUsageEffect ⟨some "umd"⟩ DEFAULT_SOURCE).2 = some "esm" ∧
    "esm" ≠ DEFAULT_SOURCE := by
  refine ⟨rfl, rfl, ?_⟩
  decide

/-- C5 amended: the in-memory source initializes to the hard-coded
"commonjs" and, when no preference is stored, stays "commonjs"; whenever the
effective source — stored or default — is not among the current type's
available tabs, the displayed value falls back to the first available tab
(`usageTabs[0]`), not to "commonjs". -/
theorem docUsage_fallback_first_tab (st : Option String) (tabs : List String)
    (h : tabs.contains (docUsageEffect ⟨st⟩ DEFAULT_SOURCE).2 = false) :
    selectedTabOf tabs (docUsageEffect ⟨st⟩ DEFAULT_SOURCE).2 = tabs.head? := by
  have h' : (docUsageEffect ⟨st⟩ DEFAULT_SOURCE).2 ∉ tabs := by simpa using h
  simp [selectedTabOf, h']

theorem docUsage_fallback_first_tab_witness :
    ((["esm"] : List String).contains (docUsageEffect ⟨some "umd"⟩ DEFAULT_SOURCE).2 = false) ∧
    selectedTabOf ["esm"] (docUsageEffect ⟨some "umd"⟩ DEFAULT_SOURCE).2 = ["esm"].head? :=
  ⟨rfl, docUsage_fallback_first_tab (some "umd") ["esm"] rfl⟩

/-- C6: a persisted preference that is not among the current type's
`usageTabs` leaves the store untouched after the mount effect (the effect
writes only when nothing is stored, and the only other writer is the
explicit tab-click handler `docUsageClickTab`), while the selector displays
the first available tab. -/
theorem docUsage_stale_pref_keeps_store (pref t : String) (ts : List String)
    (h : (t :: ts).contains pref = false) :
    (docUsageEffect ⟨some pref⟩ DEFAULT_SOURCE).1 = ⟨some pref⟩ ∧
    (docUsageEffect ⟨some pref⟩ DEFAULT_SOURCE).2 = pref ∧
    selectedTabOf (t :: ts) pref = some t := by
  refine ⟨rfl, rfl, ?_⟩
  have h' : pref ∉ t :: ts := by simpa using h
  simp [selectedTabOf, h']

theorem docUsage_stale_pref_keeps_store_witness :
    ((["commonjs"] : List String).contains "esm" = false) ∧
    ((docUsageEffect ⟨some "esm"⟩ DEFAULT_SOURCE).1 = ⟨some "esm"⟩ ∧
     (docUsageEffect ⟨some "esm"⟩ DEFAULT_SOURCE).2 = "esm" ∧
     selectedTabOf ["commonjs"] "esm" = some "commonjs") :=
  ⟨rfl, docUsage_stale_pref_keeps_store "esm" "commonjs" [] rfl⟩

/-- C7: rendering does not degrade on every input — when the tab selected
for display has no entry in the usage mapping, the component dereferences
the missing value (`selectedUsage.code`) and crashes; with usage mapping
empty, tabs `["esm"]` and the default source, the render is the modelled
crash (`none`), contradicting the claim that every input renders a
non-crashing state. -/
theorem docUsage_crashes_on_missing_usage_entry :
    renderDocUsage (fun _ => none) ["esm"] DEFAULT_SOURCE = none := rfl

/-- JavaScript strings for the filter, as character lists. -/
abbrev Str := List Char

/-- `.toLowerCase()`. -/
def lowerStr (s : Str) : Str := s.map Char.toLower

/-- `s.includes(q)`: the query occurs at some start position of `s`. -/
def includesSub (s q : Str) : Bool :=
  (List.range (s.length + 1)).any (fun i => decide (q <+: s.drop i))

/-- One entry of `navItems`: name plus optional summary and description. -/
structure TypeItem where
  name : Str
  summary : Option Str
  description : Option Str
deriving DecidableEq

/-- `item.summary?.toLowerCase().includes(query.toLowerCase())`: an absent
field is falsy. -/
def optFieldMatches (query : Str) : Option Str → Bool
  | none => false
  | some s => includesSub (lowerStr s) (lowerStr query)

def itemMatches (query : Str) (item : TypeItem) : Bool :=
  includesSub (lowerStr item.name) (lowerStr query) ||
    optFieldMatches query item.summary || optFieldMatches query item.description

/-- `filteredNav` from `Types/index.tsx`: an empty (falsy) query returns
`navItems` itself; otherwise `navItems.filter` with the three-way match. -/
def filteredNav (navItems : List TypeItem) (query : Str) : List TypeItem :=
  if query.isEmpty then navItems else navItems.filter (itemMatches query)

/-- The spec's predicate, stated through list-infix containment: the query is
a case-insensitive substring of the name, of the summary when present, or of
the description when present. -/
def specMatches (query : Str) (item : TypeItem) : Bool :=
  decide (lowerStr query <:+: lowerStr item.name) ||
    (match item.summary with
     | some s => decide (lowerStr query <:+: lowerStr s)
     | none => false) ||
    (match item.description with
     | some d => decide (lowerStr query <:+: lowerStr d)
     | none => false)

theorem includesSub_iff (s q : Str) : includesSub s q = true ↔ q <:+: s := by
  constructor
  · intro h
    simp only [includesSub, List.any_eq_true, List.mem_range] at h
    obtain ⟨i, _, hpre⟩ := h
    rw [decide_eq_true_eq] at hpre
    exact List.infix_iff_prefix_suffix.mpr ⟨s.drop i, hpre, List.drop_suffix i s⟩
  · intro h
    obtain ⟨u, v, huv⟩ := h
    simp only [includesSub, List.any_eq_true, List.mem_range]
    refine ⟨u.length, ?_, ?_⟩
    · rw [← huv]
      simp only [List.length_append]
      omega
    · rw [decide_eq_true_eq, ← huv, List.append_assoc, List.drop_left]
      exact List.prefix_append q v

theorem includesSub_eq_decide (s q : Str) : includesSub s q = decide (q <:+: s) := by
  by_cases h : q <:+: s
  · rw [(includesSub_iff s q).mpr h, decide_eq_true h]
  · rw [decide_eq_false h]
    exact Bool.eq_false_iff.mpr (fun hc => h ((includesSub_iff s q).mp hc))

theorem itemMatches_eq_specMatches (query : Str) (item : TypeItem) :
    itemMatches query item = specMatches query item := by
  obtain ⟨nm, sm, ds⟩ := item
  cases sm <;> cases ds <;>
    simp [itemMatches, specMatches, optFieldMatches, includesSub_eq_decide]

/-- C8: the empty (falsy) query returns the input item sequence itself, and
a non-empty query returns exactly the items matched by the spec's
case-insensitive-substring predicate over name, summary and description —
a `List.filter`, hence order-preserving. -/
theorem filteredNav_filters_by_ci_substring (navItems : List TypeItem) (query : Str)
    (hq : query ≠ []) :
    filteredNav navItems [] = navItems ∧
    filteredNav navItems query = navItems.filter (specMatches query) := by
  refine ⟨rfl, ?_⟩
  have hne : query.isEmpty = false := by
    cases query with
    | nil => exact absurd rfl hq
    | cons a as => rfl
  simp only [filteredNav, hne, Bool.false_eq_true, if_false]
  exact List.filter_congr (fun it _ => itemMatches_eq_specMatches query it)

def demoItemFoo : TypeItem := TypeItem.mk ['F', 'o', 'o', 'B', 'a', 'r'] none none
def demoItemBaz : TypeItem :=
  TypeItem.mk ['B', 'a', 'z'] (some ['h', 'a', 's', ' ', 'f', 'O', 'o']) none
def demoItemQux : TypeItem := TypeItem.mk ['Q', 'u', 'x'] none none
def demoItems : List TypeItem := [demoItemFoo, demoItemBaz, demoItemQux]

theorem filteredNav_filters_by_ci_substring_witness :
    (['f', 'o', 'o'] : Str) ≠ [] ∧
    (filteredNav demoItems [] = demoItems ∧
     filteredNav demoItems ['f', 'o', 'o'] = demoItems.filter (specMatches ['f', 'o', 'o'])) ∧
    demoItems.filter (specMatches ['f', 'o', 'o']) = [demoItemFoo, demoItemBaz] :=
  ⟨by decide,
   filteredNav_filters_by_ci_substring demoItems ['f', 'o', 'o'] (by decide),
   by decide⟩
